import Mathlib

/-!
Verification development for the htcondor-go repository.

The Go sources are shallowly embedded: `src/command.go` (the `Command`
descriptor, `MakeArgs`, the cache-key codec `encodeKey`/`decodeKey`) and
`src/classad/classad.go` (the attribute codec `AttributeFromString` and the
batch/stream record parsers `ReadClassAds`/`StreamClassAds`).

Modelling conventions:
* Go strings are Lean `String`s; the Go standard-library string helpers used
  by the sources (`strings.Split`, `strings.SplitN`, `strings.Join`,
  `strings.Trim`, `bufio.ScanLines`, `strconv.Itoa`, `strconv.ParseInt`,
  `strconv.ParseFloat`) are re-implemented below on `List Char`, following
  their documented semantics.
* `io.Reader` input is modelled as the string of bytes it yields; scanner
  read failures (`scanner.Err()`) are not modelled, i.e. the reader is
  assumed to deliver its content without I/O errors.
* Channel sends are modelled as the ordered list of values sent on the
  channel before it is closed.
* Go's IEEE-754 doubles are modelled by the exact rational value denoted by
  the parsed literal (`ℚ`); no rounding to 64-bit precision is performed.
  Range overflow (Go's `ErrRange` for values at or beyond the double
  rounding threshold to infinity) is modelled as a parse failure, matching
  the only use site, which treats any `ParseFloat` error as failure.
* A Go run-time panic (out-of-range slice expression) is modelled by a
  dedicated `DecodeResult.panicked` constructor, distinct from an ordinary
  returned error.
-/

namespace Htcondor

/-! ## Go string primitives on `List Char` -/

/-- `strings.Split` on a one-character separator, at the `List Char` level:
the (always nonempty) list of chunks between occurrences of `sep`. -/
def splitCh (sep : Char) : List Char → List (List Char)
  | [] => [[]]
  | c :: cs =>
    if c = sep then [] :: splitCh sep cs
    else
      match splitCh sep cs with
      | [] => [[c]]
      | p :: ps => (c :: p) :: ps

/-- `strings.Join` with a one-character separator, at the `List Char` level. -/
def joinCh (sep : Char) : List (List Char) → List Char
  | [] => []
  | [x] => x
  | x :: y :: ys => x ++ sep :: joinCh sep (y :: ys)

/-- `strings.SplitN(s, sep, 2)` for a one-character separator: `none` when
`sep` does not occur (Go returns a single-element slice), otherwise the text
before the first occurrence and everything after it. -/
def splitFirst (sep : Char) : List Char → Option (List Char × List Char)
  | [] => none
  | c :: cs =>
    if c = sep then some ([], cs)
    else (splitFirst sep cs).map (fun p => (c :: p.1, p.2))

/-- Drop leading characters that belong to the cutset (helper for
`strings.Trim`). -/
def trimLeftCh (cut : List Char) : List Char → List Char
  | [] => []
  | c :: cs => if c ∈ cut then trimLeftCh cut cs else c :: cs

/-- `strings.Trim(s, cutset)`: remove all leading and trailing characters
contained in `cut`. -/
def goTrim (s : String) (cut : List Char) : String :=
  ⟨((trimLeftCh cut ((trimLeftCh cut s.data).reverse)).reverse)⟩

/-- `strings.Split` on a one-character separator, at the `String` level. -/
def goSplit (sep : Char) (s : String) : List String :=
  (splitCh sep s.data).map String.mk

/-- `strings.Join` with a one-character separator, at the `String` level. -/
def goJoin (sep : Char) (l : List String) : String :=
  ⟨joinCh sep (l.map String.data)⟩

/-- Drop one trailing carriage return (`dropCR` inside `bufio.ScanLines`). -/
def dropCR (l : List Char) : List Char :=
  if l.getLast? = some '\r' then l.dropLast else l

/-- The sequence of tokens produced by a `bufio.Scanner` with
`bufio.ScanLines` on the given input: split on newlines, no final empty
token when the input ends with a newline, one trailing `\r` stripped from
each line. -/
def goLines (s : String) : List String :=
  if s.data = [] then []
  else
    let parts := splitCh '\n' s.data
    let parts := if parts.getLast? = some [] then parts.dropLast else parts
    parts.map (fun l => ⟨dropCR l⟩)

/-- The decimal digit characters `'0'`–`'9'`. -/
def digitChar (n : Nat) : Char :=
  match n with
  | 0 => '0' | 1 => '1' | 2 => '2' | 3 => '3' | 4 => '4'
  | 5 => '5' | 6 => '6' | 7 => '7' | 8 => '8' | _ => '9'

/-- Decimal digit string of a natural number (`strconv` formatting). -/
def natToDigits (n : Nat) : List Char :=
  if h : n < 10 then [digitChar n]
  else natToDigits (n / 10) ++ [digitChar (n % 10)]
  decreasing_by exact Nat.div_lt_self (by omega) (by omega)

/-- `fmt.Sprintf("%d", n)` for a Go `int`. -/
def goItoa (n : Int) : String :=
  if n < 0 then ⟨'-' :: natToDigits (-n).toNat⟩ else ⟨natToDigits n.toNat⟩

/-! ## `strconv.ParseInt(s, 10, 64)` -/

/-- Is `c` a decimal digit? -/
def isDig (c : Char) : Bool := '0' ≤ c && c ≤ '9'

/-- Numeric value of a decimal digit character. -/
def digVal (c : Char) : Nat := c.toNat - 48

/-- `strconv.ParseInt(s, 10, 64)`: optional sign, one or more decimal digits
(no underscores since the base is given explicitly), result in the `int64`
range; `none` models a non-nil error (syntax or range). -/
def goParseInt (s : String) : Option Int :=
  match s.data with
  | [] => none
  | l =>
    let neg : Bool := match l with | '-' :: _ => true | _ => false
    let digits : List Char := match l with
      | '+' :: r => r
      | '-' :: r => r
      | r => r
    if digits = [] then none
    else if digits.all isDig then
      let v : Nat := digits.foldl (fun a c => a * 10 + digVal c) 0
      let i : Int := if neg then -(v : Int) else (v : Int)
      if -(2 ^ 63) ≤ i ∧ i ≤ 2 ^ 63 - 1 then some i else none
    else none

/-! ## `strconv.ParseFloat(s, 64)` -/

/-- Go's `lower` on an ASCII byte: set bit `0x20`. -/
def lowerCh (c : Char) : Char := Char.ofNat (c.toNat ||| 0x20)

/-- The value a successful `ParseFloat` denotes: a finite value (kept as the
exact rational the literal denotes, see the module conventions), a signed
infinity, or NaN. -/
inductive FloatVal where
  | finite (q : ℚ)
  | inf (neg : Bool)
  | nan
deriving DecidableEq

/-- Case-insensitive comparison of `l` against an all-lowercase ASCII
keyword `kw`. -/
def eqIgnoreCase : List Char → List Char → Bool
  | [], [] => true
  | c :: cs, k :: ks => (c == k || lowerCh c == k) && eqIgnoreCase cs ks
  | _, _ => false

/-- The `special` helper of `strconv`: recognize `inf`, `infinity` (with
optional sign) and `nan` (without sign), case-insensitively, consuming the
whole string (`ParseFloat` rejects trailing text). -/
def parseSpecial (l : List Char) : Option FloatVal :=
  let isInf : List Char → Bool := fun r =>
    eqIgnoreCase r "inf".data || eqIgnoreCase r "infinity".data
  match l with
  | '+' :: r => if isInf r then some (.inf false) else none
  | '-' :: r => if isInf r then some (.inf true) else none
  | r =>
    if isInf r then some (.inf false)
    else if eqIgnoreCase r "nan".data then some .nan else none

/-- Numeric value of a mantissa digit in base 10 or 16 (upper- or lowercase
hex letters). -/
def digValIn (base : Nat) (c : Char) : Option Nat :=
  if isDig c then some (digVal c)
  else if base = 16 && 'a' ≤ lowerCh c && lowerCh c ≤ 'f' then
    some ((lowerCh c).toNat - 97 + 10)
  else none

/-- Result of scanning a mantissa: accumulated digit value, count of digits
after the dot, whether any digit / a dot was seen, and the unconsumed rest. -/
structure MantOut where
  m : Nat
  frac : Nat
  sawDigits : Bool
  sawDot : Bool
  rest : List Char

/-- The mantissa loop of `strconv`'s `readFloat`: consume digits,
underscores (validated globally afterwards) and at most one dot. -/
def scanMant (base : Nat) : List Char → Nat → Nat → Bool → Bool → MantOut
  | [], m, frac, sawDigits, sawDot => ⟨m, frac, sawDigits, sawDot, []⟩
  | c :: cs, m, frac, sawDigits, sawDot =>
    if c = '_' then scanMant base cs m frac sawDigits sawDot
    else if c = '.' then
      if sawDot then ⟨m, frac, sawDigits, sawDot, c :: cs⟩
      else scanMant base cs m frac sawDigits true
    else
      match digValIn base c with
      | some d =>
        scanMant base cs (m * base + d) (if sawDot then frac + 1 else frac)
          true sawDot
      | none => ⟨m, frac, sawDigits, sawDot, c :: cs⟩

/-- The exponent-digit loop of `readFloat`: digits and underscores up to the
end of the string (anything else fails the whole parse, since `ParseFloat`
requires full consumption). The exact exponent is kept (Go saturates at
10000, which changes only the overflow and underflow classification it
shares with the exact value). -/
def scanExpAll : List Char → Nat → Option Nat
  | [], acc => some acc
  | c :: cs, acc =>
    if c = '_' then scanExpAll cs acc
    else if isDig c then scanExpAll cs (acc * 10 + digVal c)
    else none

/-- `underscoreOK` from `strconv`: underscores may appear only between
digits or between a base prefix and a digit. `saw` tracks the class of the
previous character. -/
def underscoreRun (hex : Bool) : List Char → Char → Bool
  | [], saw => saw ≠ '_'
  | c :: cs, saw =>
    if isDig c || (hex && 'a' ≤ lowerCh c && lowerCh c ≤ 'f') then
      underscoreRun hex cs '0'
    else if c = '_' then
      if saw ≠ '0' then false else underscoreRun hex cs '_'
    else if saw = '_' then false
    else underscoreRun hex cs '!'

/-- `underscoreOK(s)` from `strconv`. -/
def underscoreOK (l : List Char) : Bool :=
  let l1 := match l with
    | c :: r => if c = '-' ∨ c = '+' then r else l
    | [] => l
  match l1 with
  | '0' :: x :: r =>
    if lowerCh x = 'b' ∨ lowerCh x = 'o' ∨ lowerCh x = 'x' then
      underscoreRun (lowerCh x = 'x') r '0'
    else underscoreRun false l1 '^'
  | _ => underscoreRun false l1 '^'

/-- `s * m * b ^ e` as an exact rational, computed on integer numerator and
denominator (`mkRat` normalizes), so that concrete instances evaluate by
`rfl`. -/
def shiftVal (sgn : Int) (m : Nat) (b : Nat) (e : Int) : ℚ :=
  if 0 ≤ e then mkRat (sgn * (m : Int) * ((b ^ e.toNat : Nat) : Int)) 1
  else mkRat (sgn * (m : Int)) (b ^ (-e).toNat)

/-- The smallest magnitude at which round-to-nearest-even takes a decimal
value to `+Inf` for a 64-bit double (the numeral is `2 ^ 1024 - 2 ^ 970`,
written out so that it evaluates without exponentiation); at or beyond it
`ParseFloat` reports `ErrRange`. -/
def overflowThreshold : ℚ := mkRat 179769313486231580793728971405303415079934132710037826936173778980444968292764750946649017977587207096330286416692887910946555547851940402630657488671505820681908902000708383676273854845817711531764475730270069855571366959622842914819860834936475292719074168444365510704342711559699508093042880177904174497792 1

theorem overflowThreshold_eq : overflowThreshold = ((2 ^ 1024 - 2 ^ 970 : Nat) : ℚ) := by
  unfold overflowThreshold
  norm_num

/-- `|q|`, computed on the numerator (kept as a computation on `mkRat` so
that concrete instances evaluate by `rfl`). -/
def qAbs (q : ℚ) : ℚ := mkRat q.num.natAbs q.den

/-- `readFloat` from `strconv`, full-string variant, producing the exact
rational value of the literal: optional sign, a decimal mantissa with
optional exponent or a `0x` hex mantissa with mandatory `p` exponent. -/
def readFloatQ (l : List Char) : Option ℚ :=
  let neg : Bool := match l with | '-' :: _ => true | _ => false
  let l1 : List Char := match l with
    | '+' :: r => r
    | '-' :: r => r
    | r => r
  let hex : Bool := match l1 with
    | '0' :: x :: _ => lowerCh x = 'x'
    | _ => false
  let base : Nat := if hex then 16 else 10
  let l2 : List Char := if hex then l1.drop 2 else l1
  let mo := scanMant base l2 0 0 false false
  if !mo.sawDigits then none
  else
    let mkVal : Int → Option ℚ := fun e =>
      let sgn : Int := if neg then -1 else 1
      if hex then some (shiftVal sgn mo.m 2 (e - 4 * (mo.frac : Int)))
      else some (shiftVal sgn mo.m 10 (e - (mo.frac : Int)))
    match mo.rest with
    | [] => if hex then none else mkVal 0
    | c :: r =>
      if lowerCh c = (if hex then 'p' else 'e') then
        let esign : Int := match r with | '-' :: _ => -1 | _ => 1
        let r2 : List Char := match r with
          | '+' :: rr => rr
          | '-' :: rr => rr
          | rr => rr
        match r2 with
        | [] => none
        | d :: _ =>
          if isDig d then
            match scanExpAll r2 0 with
            | some e => mkVal (esign * (e : Int))
            | none => none
          else none
      else none

/-- `strconv.ParseFloat(s, 64)`; `none` models a non-nil error (syntax or
range), which is all the caller inspects. -/
def goParseFloat (s : String) : Option FloatVal :=
  match parseSpecial s.data with
  | some v => some v
  | none =>
    match readFloatQ s.data with
    | none => none
    | some q =>
      if '_' ∈ s.data ∧ ¬underscoreOK s.data then none
      else if (qAbs q).blt overflowThreshold then some (.finite q)
      else none

/-! ## The ClassAd attribute codec (`src/classad/classad.go`) -/

/-- `AttributeType` from `classad.go`. -/
inductive AttributeType where
  | Integer
  | Real
  | String
  | Undefined
  | Error
deriving DecidableEq

/-- The `interface{}` value stored in an `Attribute`: an `int64`, a double
(modelled exactly, see conventions), a string, or `nil`. -/
inductive AttrValue where
  | vInt (i : Int)
  | vReal (f : FloatVal)
  | vStr (s : String)
  | vNone
deriving DecidableEq

/-- `Attribute` from `classad.go`. -/
structure Attribute where
  «Type» : AttributeType
  Value : AttrValue
deriving DecidableEq

/-- `AttributeFromString` from `classad.go`: trim spaces; empty gives the
`Error` attribute; a token not starting with a double quote is tried as an
`int64` and then as a double; everything else is a string with all
surrounding double quotes trimmed. -/
def AttributeFromString (val : String) : Attribute :=
  let v := goTrim val [' ']
  if v.data.length = 0 then { «Type» := .Error, Value := .vNone }
  else
    let numeric : Option Attribute :=
      if v.data.head? = some '\x22' then none
      else
        match goParseInt v with
        | some i => some { «Type» := .Integer, Value := .vInt i }
        | none =>
          (goParseFloat v).map fun f => { «Type» := .Real, Value := .vReal f }
    numeric.getD { «Type» := .String, Value := .vStr (goTrim v ['\x22']) }

/-- `ClassAd` is `map[string]Attribute`; the Go map is represented as an
association list in first-insertion order (assignment to an existing key
updates in place, a new key is appended), which determines map contents
uniquely. -/
abbrev ClassAd := List (String × Attribute)

/-- Map assignment `ad[key] = attr`. -/
def adSet : ClassAd → String → Attribute → ClassAd
  | [], k, v => [(k, v)]
  | (k', v') :: rest, k, v =>
    if k' = k then (k, v) :: rest else (k', v') :: adSet rest k v

/-- The per-line body shared by both parsers: `strings.SplitN(line, "=", 2)`
and, on success, the trimmed key with the attribute parsed from the rest. -/
def parseLine (l : String) : Option (String × Attribute) :=
  (splitFirst '=' l.data).map fun p =>
    (goTrim ⟨p.1⟩ [' ', '\x22'], AttributeFromString ⟨p.2⟩)

/-- The error text produced for a malformed line. -/
def invalidAttrMsg (l : String) : String :=
  "invalid classad attribute: \x22" ++ l ++ "\x22"

/-- The scanner loop of `ReadClassAds`: `lines` still to read, records
accumulated so far, the currently accumulating record. A malformed line
aborts with the error alone. -/
def readAds : List String → List ClassAd → ClassAd →
    Except String (List ClassAd)
  | [], ads, ad => .ok (if ad ≠ [] then ads ++ [ad] else ads)
  | l :: rest, ads, ad =>
    if l = "" then
      if ad ≠ [] then readAds rest (ads ++ [ad]) [] else readAds rest ads ad
    else
      match parseLine l with
      | none => .error (invalidAttrMsg l)
      | some (k, a) => readAds rest ads (adSet ad k a)

/-- `ReadClassAds` from `classad.go` on the reader's content. -/
def ReadClassAds (input : String) : Except String (List ClassAd) :=
  readAds (goLines input) [] []

/-- The scanner loop of `StreamClassAds`: returns the ordered list of
records sent on the record channel and the ordered list of errors sent on
the error channel. A malformed line reports an error and parsing continues. -/
def streamAds : List String → ClassAd → List ClassAd × List String
  | [], ad => (if ad ≠ [] then [ad] else [], [])
  | l :: rest, ad =>
    if l = "" then
      if ad ≠ [] then
        let p := streamAds rest []
        (ad :: p.1, p.2)
      else streamAds rest ad
    else
      match parseLine l with
      | none =>
        let p := streamAds rest ad
        (p.1, invalidAttrMsg l :: p.2)
      | some (k, a) => streamAds rest (adSet ad k a)

/-- `StreamClassAds` from `classad.go` on the reader's content. -/
def StreamClassAds (input : String) : List ClassAd × List String :=
  streamAds (goLines input) []

/-! ## The command descriptor (`src/command.go`) -/

/-- `keySeparator` from `command.go`: the unit separator. -/
def sepChar : Char := '\x1f'

/-- `attributeFormat` from `command.go`. -/
def attributeFormat : String := "-af:lrng"

/-- `Command` from `command.go`. The unexported cache pool and group are
external collaborators and are omitted; `cacheLifetime` (a `time.Duration`)
is kept as a natural number of nanoseconds, which is all `encodeKey`
inspects. -/
structure Command where
  Command : String
  Pool : String
  Name : String
  Limit : Int
  Constraint : String
  Attributes : List String
  Args : List String
  cacheLifetime : Nat
deriving DecidableEq

/-- `MakeArgs` from `command.go`: the fixed-order argument list. -/
def Command.MakeArgs (c : Htcondor.Command) : List String :=
  let args : List String := []
  let args := if c.Pool ≠ "" then args ++ ["-pool", c.Pool] else args
  let args := if c.Name ≠ "" then args ++ ["-name", c.Name] else args
  let args := if 0 < c.Limit then args ++ ["-limit", goItoa c.Limit] else args
  let args :=
    if c.Constraint ≠ "" then args ++ ["-constraint", c.Constraint] else args
  let args := if 0 < c.Args.length then args ++ c.Args else args
  if 0 < c.Attributes.length then args ++ (attributeFormat :: c.Attributes)
  else args ++ ["-long"]

/-- `encodeKey` from `command.go`. When `cacheLifetime > 0` the Go code uses
`time.Now().Truncate(cacheLifetime).Format(time.RFC3339)`; that formatted
bucket is passed in as `nowBucket`, keeping the function pure. With
`cacheLifetime = 0` the time key is the literal `"0"`. -/
def Command.encodeKey (c : Htcondor.Command) (nowBucket : String) : String :=
  let timeKey := if 0 < c.cacheLifetime then nowBucket else "0"
  timeKey ++ ⟨[sepChar]⟩ ++ c.Command ++ ⟨[sepChar]⟩ ++
    goJoin sepChar c.MakeArgs

/-- Outcome of `decodeKey`: a decoded command, a returned error, or a
run-time panic (Go's out-of-range slice expression `parts[2:endArgs]`
when `endArgs < 2`). -/
inductive DecodeResult where
  | ok (c : Command)
  | err (msg : String)
  | panicked
deriving DecidableEq

/-- The body of `decodeKey` from `command.go` after the split on the
separator (`key` is only used in the error text): fewer than two
fields is an error; the second field is the tool name; with more than two
fields, arguments run from index 2 up to the first occurrence of
`attributeFormat` anywhere in the fields (or the last index when absent),
and the fields after that occurrence become the attributes. `parts[2:e]`
with `e < 2` is a Go slice-bounds panic. -/
def decodeParts (parts : List String) (key : String) : DecodeResult :=
  if parts.length < 2 then .err ("unable to decode cache key: " ++ key)
  else
    let c : Command :=
      { Command := parts.getD 1 "", Pool := "", Name := "", Limit := 0,
        Constraint := "", Attributes := [], Args := [], cacheLifetime := 0 }
    if 2 < parts.length then
      let i := parts.findIdx (· == attributeFormat)
      let endArgs := if i < parts.length then i else parts.length - 1
      if endArgs < 2 then .panicked
      else
        let args := (parts.drop 2).take (endArgs - 2)
        let attrs :=
          if endArgs < parts.length - 1 then parts.drop (endArgs + 1) else []
        .ok { c with Args := args, Attributes := attrs }
    else .ok c

/-- `decodeKey` proper: split the key and decode the fields. -/
def decodeKey (key : String) : DecodeResult :=
  decodeParts (goSplit sepChar key) key

/-! ## Slice-level model of `Copy` (`src/command.go`)

`Copy`'s contract is about aliasing of the `Attributes` and `Args` slices,
so for it the command is re-embedded with explicit Go slice semantics: a
slice is an (array identity, length, capacity) triple into a heap of
string arrays, `append` writes in place when spare capacity exists and
reallocates otherwise, and `make`+`copy` produces a fresh array. -/

/-- A Go `[]string` header. The nil slice is any header with
`len = 0, cap = 0` (no operation below distinguishes nil from a capacity-0
slice). -/
structure GoSlice where
  arr : Nat
  len : Nat
  cap : Nat
deriving DecidableEq

/-- The heap of backing arrays; the index is the array identity. -/
abbrev Heap := List (List String)

/-- The elements a slice header denotes. -/
def Heap.view (h : Heap) (s : GoSlice) : List String :=
  (h.getD s.arr []).take s.len

/-- Allocate a fresh backing array. -/
def Heap.alloc (h : Heap) (content : List String) : Heap × Nat :=
  (h ++ [content], h.length)

/-- Go `append(s, x)`: write in place into spare capacity, otherwise
reallocate with doubled capacity (the growth factor is unobservable here). -/
def Heap.appendElem (h : Heap) (s : GoSlice) (x : String) : Heap × GoSlice :=
  if s.len < s.cap then
    (h.set s.arr ((h.getD s.arr []).set s.len x), ⟨s.arr, s.len + 1, s.cap⟩)
  else
    let newcap := if s.cap = 0 then 1 else 2 * s.cap
    let content := h.view s ++ [x] ++ List.replicate (newcap - (s.len + 1)) ""
    (h ++ [content], ⟨h.length, s.len + 1, newcap⟩)

/-- `Command` with explicit slice headers for its two slice fields. -/
structure HCommand where
  Command : String
  Pool : String
  Name : String
  Limit : Int
  Constraint : String
  Attributes : GoSlice
  Args : GoSlice
  cacheLifetime : Nat
deriving DecidableEq

/-- The value a caller observes for a command: every public field, with the
slice fields read through the heap. -/
structure ObsCommand where
  Command : String
  Pool : String
  Name : String
  Limit : Int
  Constraint : String
  Attributes : List String
  Args : List String
deriving DecidableEq

/-- Observe a command's public fields in a given heap. -/
def HCommand.obs (h : Heap) (c : HCommand) : ObsCommand :=
  ⟨c.Command, c.Pool, c.Name, c.Limit, c.Constraint,
    h.view c.Attributes, h.view c.Args⟩

/-- `Copy` from `command.go`: scalar fields are copied; for each slice
field, `make([]string, len)` followed by `copy` yields a fresh backing
array holding the same elements (the two source lines are embedded by their
combined effect). -/
def HCommand.copy (h : Heap) (c : HCommand) : Heap × HCommand :=
  let attrContent := h.view c.Attributes ++
    List.replicate (c.Attributes.len - (h.view c.Attributes).length) ""
  let p1 := h.alloc attrContent
  let argContent := p1.1.view c.Args ++
    List.replicate (c.Args.len - (p1.1.view c.Args).length) ""
  let p2 := p1.1.alloc argContent
  (p2.1,
    { c with
      Attributes := ⟨p1.2, c.Attributes.len, c.Attributes.len⟩,
      Args := ⟨p2.2, c.Args.len, c.Args.len⟩ })

/-- `WithAttribute` from `command.go` in the slice model: a nil slice is
replaced by a fresh one-element slice, otherwise `append`. -/
def HCommand.withAttribute (h : Heap) (c : HCommand) (a : String) :
    Heap × HCommand :=
  if c.Attributes.len = 0 ∧ c.Attributes.cap = 0 then
    let p := h.alloc [a]
    (p.1, { c with Attributes := ⟨p.2, 1, 1⟩ })
  else
    let p := h.appendElem c.Attributes a
    (p.1, { c with Attributes := p.2 })

/-- `WithArg` from `command.go` in the slice model. -/
def HCommand.withArg (h : Heap) (c : HCommand) (a : String) :
    Heap × HCommand :=
  if c.Args.len = 0 ∧ c.Args.cap = 0 then
    let p := h.alloc [a]
    (p.1, { c with Args := ⟨p.2, 1, 1⟩ })
  else
    let p := h.appendElem c.Args a
    (p.1, { c with Args := p.2 })

/-- A mutation a caller may apply to a command after copying it: the two
slice-extending builder calls and direct assignment of each scalar field. -/
inductive Mutation where
  | addAttr (a : String)
  | addArg (a : String)
  | setCommand (s : String)
  | setPool (s : String)
  | setName (s : String)
  | setLimit (n : Int)
  | setConstraint (s : String)
deriving DecidableEq

/-- Apply one mutation. -/
def applyMut (h : Heap) (c : HCommand) : Mutation → Heap × HCommand
  | .addAttr a => c.withAttribute h a
  | .addArg a => c.withArg h a
  | .setCommand s => (h, { c with Command := s })
  | .setPool s => (h, { c with Pool := s })
  | .setName s => (h, { c with Name := s })
  | .setLimit n => (h, { c with Limit := n })
  | .setConstraint s => (h, { c with Constraint := s })

/-- Apply a sequence of mutations. -/
def applyMuts (h : Heap) (c : HCommand) : List Mutation → Heap × HCommand
  | [] => (h, c)
  | m :: ms =>
    let p := applyMut h c m
    applyMuts p.1 p.2 ms

/-- A well-formed slice header: its array exists and holds at least `len`
elements. -/
def Heap.wfSlice (h : Heap) (s : GoSlice) : Prop :=
  s.arr < h.length ∧ s.len ≤ (h.getD s.arr []).length

/-- The fixed-order decomposition of `MakeArgs` up to (not including) the
attribute section. -/
def argsFront (c : Command) : List String :=
  (if c.Pool ≠ "" then ["-pool", c.Pool] else []) ++
    (if c.Name ≠ "" then ["-name", c.Name] else []) ++
    (if 0 < c.Limit then ["-limit", goItoa c.Limit] else []) ++
    (if c.Constraint ≠ "" then ["-constraint", c.Constraint] else []) ++
    c.Args

/-- The attribute section of `MakeArgs`: either the attribute-selection
marker followed by the attributes, or `-long`. -/
def attrTail (c : Command) : List String :=
  if c.Attributes ≠ [] then attributeFormat :: c.Attributes else ["-long"]

/-- Frame invariant relating the original command `c` (observed in the
initial heap `h0`) to the evolving copy `cc` in the current heap `h`: the
original's arrays exist, the copy's slice headers never alias them, and
their contents are unchanged. -/
def FrameInv (h0 : Heap) (c : HCommand) (h : Heap) (cc : HCommand) : Prop :=
  c.Attributes.arr < h.length ∧ c.Args.arr < h.length ∧
    cc.Attributes.arr ≠ c.Attributes.arr ∧
    cc.Attributes.arr ≠ c.Args.arr ∧
    cc.Args.arr ≠ c.Attributes.arr ∧
    cc.Args.arr ≠ c.Args.arr ∧
    h.getD c.Attributes.arr [] = h0.getD c.Attributes.arr [] ∧
    h.getD c.Args.arr [] = h0.getD c.Args.arr []

/-! ## Lemmas on the Go string primitives -/

theorem splitCh_ne_nil (sep : Char) (l : List Char) : splitCh sep l ≠ [] := by
  induction l with
  | nil => simp [splitCh]
  | cons c cs ih =>
    rw [splitCh]
    split
    · simp
    · split
      · simp
      · simp

theorem splitCh_of_not_mem {sep : Char} {l : List Char} (h : sep ∉ l) :
    splitCh sep l = [l] := by
  induction l with
  | nil => rfl
  | cons c cs ih =>
    rw [splitCh]
    have hc : ¬ c = sep := by rintro rfl; exact h (by simp)
    rw [if_neg hc, ih (fun hm => h (by simp [hm]))]

theorem splitCh_append_cons {sep : Char} {x : List Char} (r : List Char)
    (h : sep ∉ x) : splitCh sep (x ++ sep :: r) = x :: splitCh sep r := by
  induction x with
  | nil => simp [splitCh]
  | cons c cs ih =>
    have hc : ¬ c = sep := by rintro rfl; exact h (by simp)
    rw [List.cons_append, splitCh, if_neg hc,
      ih (fun hm => h (by simp [hm]))]

theorem joinCh_cons {sep : Char} {L : List (List Char)} (x : List Char)
    (h : L ≠ []) : joinCh sep (x :: L) = x ++ sep :: joinCh sep L := by
  cases L with
  | nil => exact absurd rfl h
  | cons y ys => rfl

theorem splitCh_joinCh {sep : Char} {L : List (List Char)} (hne : L ≠ [])
    (h : ∀ x ∈ L, sep ∉ x) : splitCh sep (joinCh sep L) = L := by
  induction L with
  | nil => exact absurd rfl hne
  | cons x xs ih =>
    cases xs with
    | nil => exact splitCh_of_not_mem (h x (by simp))
    | cons y ys =>
      rw [joinCh_cons x (by simp),
        splitCh_append_cons _ (h x (by simp)),
        ih (by simp) (fun z hz => h z (by simp [hz]))]

theorem goSplit_goJoin {sep : Char} {l : List String} (hne : l ≠ [])
    (h : ∀ s ∈ l, sep ∉ s.data) : goSplit sep (goJoin sep l) = l := by
  unfold goSplit goJoin
  rw [show (String.mk (joinCh sep (l.map String.data))).data
      = joinCh sep (l.map String.data) from rfl]
  rw [splitCh_joinCh (by simpa using hne)
    (by intro x hx
        rcases List.mem_map.mp hx with ⟨s, hs, rfl⟩
        exact h s hs)]
  rw [List.map_map]
  have hid : String.mk ∘ String.data = id := funext (fun s => rfl)
  rw [hid, List.map_id]

/-! ## Lemmas on `MakeArgs` -/

theorem makeArgs_eq (c : Command) :
    c.MakeArgs = argsFront c ++ attrTail c := by
  unfold Command.MakeArgs argsFront attrTail
  by_cases h1 : c.Pool ≠ "" <;> by_cases h2 : c.Name ≠ "" <;>
    by_cases h3 : 0 < c.Limit <;> by_cases h4 : c.Constraint ≠ "" <;>
    by_cases h5 : c.Attributes ≠ [] <;> by_cases h6 : c.Args = [] <;>
    simp [h1, h2, h3, h4, h5, h6, List.length_pos]

theorem attrTail_ne_nil (c : Command) : attrTail c ≠ [] := by
  unfold attrTail
  split <;> simp

theorem makeArgs_ne_nil (c : Command) : c.MakeArgs ≠ [] := by
  rw [makeArgs_eq]
  intro h
  exact attrTail_ne_nil c (List.append_eq_nil.mp h).2

theorem mem_argsFront {c : Command} {x : String} (h : x ∈ argsFront c) :
    x = "-pool" ∨ x = c.Pool ∨ x = "-name" ∨ x = c.Name ∨ x = "-limit" ∨
      x = goItoa c.Limit ∨ x = "-constraint" ∨ x = c.Constraint ∨
      x ∈ c.Args := by
  unfold argsFront at h
  simp only [List.mem_append] at h
  rcases h with ((((h | h) | h) | h) | h)
  all_goals first
    | (split at h <;> simp_all)
    | simp_all
  all_goals tauto

/-! ## Lemmas on `goItoa` -/

theorem isDig_digitChar (k : Nat) : isDig (digitChar k) := by
  unfold digitChar
  split <;> decide

theorem isDig_of_mem_natToDigits {n : Nat} :
    ∀ c ∈ natToDigits n, isDig c := by
  induction n using Nat.strong_induction_on with
  | _ n ih =>
    intro c hc
    rw [natToDigits] at hc
    split at hc
    · rcases List.mem_singleton.mp hc with rfl
      exact isDig_digitChar n
    · rcases List.mem_append.mp hc with h | h
      · exact ih (n / 10) (Nat.div_lt_self (by omega) (by omega)) c h
      · rcases List.mem_singleton.mp h with rfl
        exact isDig_digitChar (n % 10)

theorem sepChar_not_mem_goItoa (n : Int) : sepChar ∉ (goItoa n).data := by
  intro h
  unfold goItoa at h
  split at h
  · rcases List.mem_cons.mp h with h | h
    · exact absurd h (by decide)
    · exact absurd (isDig_of_mem_natToDigits _ h) (by decide)
  · exact absurd (isDig_of_mem_natToDigits _ h) (by decide)

theorem goItoa_ne_attributeFormat (n : Int) : goItoa n ≠ attributeFormat := by
  intro h
  have hmem : ':' ∈ (goItoa n).data := by
    rw [h]
    decide
  unfold goItoa at hmem
  split at hmem
  · rcases List.mem_cons.mp hmem with h' | h'
    · exact absurd h' (by decide)
    · exact absurd (isDig_of_mem_natToDigits _ h') (by decide)
  · exact absurd (isDig_of_mem_natToDigits _ hmem) (by decide)

/-! ## Lemmas on `findIdx` and first occurrences -/

theorem findIdx_eq_length_of_forall {α} (p : α → Bool) {l : List α}
    (h : ∀ x ∈ l, ¬ p x) : l.findIdx p = l.length := by
  induction l with
  | nil => rfl
  | cons a t ih =>
    rw [List.findIdx_cons]
    have hpa : p a = false := by simpa using h a (by simp)
    simp [hpa, ih (fun x hx => h x (by simp [hx]))]

theorem findIdx_append_first {α} (p : α → Bool) {X : List α} (y : α)
    (Y : List α) (hX : ∀ x ∈ X, ¬ p x) (hy : p y) :
    (X ++ y :: Y).findIdx p = X.length := by
  induction X with
  | nil => simp [List.findIdx_cons, hy]
  | cons a t ih =>
    rw [List.cons_append, List.findIdx_cons]
    have hpa : p a = false := by simpa using hX a (by simp)
    simp [hpa, ih (fun x hx => hX x (by simp [hx]))]

theorem exists_first_split {α} [DecidableEq α] {a : α} {l : List α}
    (h : a ∈ l) : ∃ X Y, l = X ++ a :: Y ∧ a ∉ X := by
  induction l with
  | nil => cases h
  | cons b t ih =>
    by_cases hb : b = a
    · exact ⟨[], t, by simp [hb], by simp⟩
    · have hat : a ∈ t := by
        rcases List.mem_cons.mp h with h' | h'
        · exact absurd h'.symm hb
        · exact h'
      rcases ih hat with ⟨X, Y, hXY, hnX⟩
      refine ⟨b :: X, Y, by simp [hXY], ?_⟩
      simp only [List.mem_cons]
      rintro (h' | h')
      · exact hb h'.symm
      · exact hnX h'

/-! ## Lemmas on `decodeParts` -/

/-- When the attribute marker occurs nowhere among the fields and the last
field is `-long`, decoding keeps fields 2…end-1 as the extra arguments and
selects no attributes. -/
theorem decodeParts_no_marker (p0 p1 : String) (X : List String)
    (key : String) (h0 : attributeFormat ∉ p0 :: p1 :: X) :
    decodeParts (p0 :: p1 :: (X ++ ["-long"])) key =
      .ok ⟨p1, "", "", 0, "", [], X, 0⟩ := by
  have hfa : ∀ x ∈ p0 :: p1 :: (X ++ ["-long"]),
      ¬ (x == attributeFormat) = true := by
    intro x hx hbe
    rw [beq_iff_eq] at hbe
    subst hbe
    have hsplit : attributeFormat ∈ p0 :: p1 :: X ∨
        attributeFormat ∈ (["-long"] : List String) := by
      rcases List.mem_cons.mp hx with h | hx
      · exact Or.inl (by simp [h])
      rcases List.mem_cons.mp hx with h | hx
      · exact Or.inl (by simp [h])
      rcases List.mem_append.mp hx with h | h
      · exact Or.inl (by simp [h])
      · exact Or.inr h
    rcases hsplit with h | h
    · exact h0 h
    · rw [List.mem_singleton] at h
      exact absurd h (by decide)
  have hidx : (p0 :: p1 :: (X ++ ["-long"])).findIdx (· == attributeFormat)
      = (p0 :: p1 :: (X ++ ["-long"])).length :=
    findIdx_eq_length_of_forall _ hfa
  unfold decodeParts
  rw [if_neg (by simp), if_pos (by simp), hidx]
  rw [if_neg (by simp)]
  have hlen : (p0 :: p1 :: (X ++ ["-long"])).length = X.length + 3 := by
    simp
  rw [if_neg (by simp [hlen])]
  have hargs : ((p0 :: p1 :: (X ++ ["-long"])).drop 2).take
      ((p0 :: p1 :: (X ++ ["-long"])).length - 1 - 2) = X := by
    rw [hlen]
    show (X ++ ["-long"]).take (X.length + 3 - 1 - 2) = X
    rw [show X.length + 3 - 1 - 2 = X.length from by omega]
    exact List.take_left ..
  rw [hargs, if_neg (by simp [hlen])]
  simp

/-- When the first occurrence of the attribute marker among the fields is at
index two or later, decoding takes fields 2…(occurrence-1) as the extra
arguments and the fields after the occurrence as the attributes. -/
theorem decodeParts_with_marker (p0 p1 : String) (X Y : List String)
    (key : String) (h0 : attributeFormat ∉ p0 :: p1 :: X) (hY : Y ≠ []) :
    decodeParts (p0 :: p1 :: (X ++ attributeFormat :: Y)) key =
      .ok ⟨p1, "", "", 0, "", Y, X, 0⟩ := by
  have hidx : (p0 :: p1 :: (X ++ attributeFormat :: Y)).findIdx
      (· == attributeFormat) = X.length + 2 := by
    have := findIdx_append_first (· == attributeFormat)
      (X := p0 :: p1 :: X) attributeFormat Y
      (by
        intro x hx hbe
        rw [beq_iff_eq] at hbe
        subst hbe
        exact h0 hx)
      (by simp)
    simpa using this
  have hlen : (p0 :: p1 :: (X ++ attributeFormat :: Y)).length
      = X.length + Y.length + 3 := by
    simp only [List.length_cons, List.length_append]
    omega
  have hYpos : 0 < Y.length := List.length_pos.mpr hY
  have hargs : ((p0 :: p1 :: (X ++ attributeFormat :: Y)).drop 2).take
      (X.length + 2 - 2) = X := by
    show (X ++ attributeFormat :: Y).take (X.length + 2 - 2) = X
    rw [show X.length + 2 - 2 = X.length from by omega]
    exact List.take_left ..
  have hattrs : (p0 :: p1 :: (X ++ attributeFormat :: Y)).drop
      (X.length + 2 + 1) = Y := by
    show ((p0 :: p1 :: X) ++ attributeFormat :: Y).drop (X.length + 2 + 1)
      = Y
    rw [show X.length + 2 + 1 = (p0 :: p1 :: X).length + 1 from by simp]
    rw [List.drop_append 1]
    simp
  unfold decodeParts
  dsimp only
  rw [hidx, hlen]
  have e1 : ¬ (X.length + Y.length + 3 < 2) := by omega
  have e2 : 2 < X.length + Y.length + 3 := by omega
  have e3 : X.length + 2 < X.length + Y.length + 3 := by omega
  have e4 : ¬ (X.length + 2 < 2) := by omega
  have e5 : X.length + 2 < X.length + Y.length + 3 - 1 := by omega
  rw [if_neg e1, if_pos e2, if_pos e3, if_neg e4, if_pos e5, hargs, hattrs]
  simp

/-! ## The encode/decode roundtrip -/

theorem mem_attrTail {c : Command} {x : String} (h : x ∈ attrTail c) :
    x = attributeFormat ∨ x ∈ c.Attributes ∨ x = "-long" := by
  unfold attrTail at h
  split at h
  · rcases List.mem_cons.mp h with h | h
    · exact Or.inl h
    · exact Or.inr (Or.inl h)
  · rcases List.mem_singleton.mp h with rfl
    exact Or.inr (Or.inr rfl)

/-- `MakeArgs` of a command as produced by `decodeKey` (all scalar fields
empty or zero). -/
theorem makeArgs_decoded (cmd : String) (args attrs : List String) :
    (⟨cmd, "", "", 0, "", attrs, args, 0⟩ : Command).MakeArgs =
      args ++ (if attrs ≠ [] then attributeFormat :: attrs else ["-long"]) := by
  rw [makeArgs_eq]
  unfold argsFront attrTail
  simp

/-- Every element of `MakeArgs` is separator-free when every field is. -/
theorem sep_free_makeArgs {d : Command}
    (hpool : sepChar ∉ d.Pool.data) (hname : sepChar ∉ d.Name.data)
    (hcons : sepChar ∉ d.Constraint.data)
    (hargs : ∀ a ∈ d.Args, sepChar ∉ a.data)
    (hattrs : ∀ a ∈ d.Attributes, sepChar ∉ a.data) :
    ∀ x ∈ d.MakeArgs, sepChar ∉ x.data := by
  intro x hx
  rw [makeArgs_eq] at hx
  rcases List.mem_append.mp hx with hx | hx
  · rcases mem_argsFront hx with h | h | h | h | h | h | h | h | h
    · exact h ▸ (by decide)
    · exact h ▸ hpool
    · exact h ▸ (by decide)
    · exact h ▸ hname
    · exact h ▸ (by decide)
    · exact h ▸ sepChar_not_mem_goItoa _
    · exact h ▸ (by decide)
    · exact h ▸ hcons
    · exact hargs x h
  · rcases mem_attrTail hx with h | h | h
    · exact h ▸ (by decide)
    · exact hattrs x h
    · exact h ▸ (by decide)

/-- With no time bucketing, `encodeKey` is the separator-join of the field
list `["0", tool] ++ MakeArgs`. -/
theorem encodeKey_eq_join (c : Command) (now : String)
    (h : c.cacheLifetime = 0) :
    c.encodeKey now = goJoin sepChar ("0" :: c.Command :: c.MakeArgs) := by
  have hM : c.MakeArgs.map String.data ≠ [] := by
    simpa using makeArgs_ne_nil c
  apply String.ext
  unfold Command.encodeKey goJoin
  rw [h]
  rw [if_neg (by omega)]
  show ("0" ++ ⟨[sepChar]⟩ ++ c.Command ++ ⟨[sepChar]⟩ ++
      (⟨joinCh sepChar (c.MakeArgs.map String.data)⟩ : String)).data = _
  rw [show (("0" : String) :: c.Command :: c.MakeArgs).map String.data
      = "0".data :: c.Command.data :: c.MakeArgs.map String.data from rfl]
  rw [joinCh_cons _ (by simp), joinCh_cons _ hM]
  simp [String.data_append]

/-- The decode side of the roundtrip: under the separator- and
marker-freeness conditions, decoding the encoded key succeeds with the same
tool name and an argument-list-preserving command. -/
theorem decode_encode (d : Command) (now : String)
    (hlife : d.cacheLifetime = 0)
    (hcsep : sepChar ∉ d.Command.data) (hcmk : d.Command ≠ attributeFormat)
    (hpool : sepChar ∉ d.Pool.data) (hname : sepChar ∉ d.Name.data)
    (hcons : sepChar ∉ d.Constraint.data)
    (hargs : ∀ a ∈ d.Args, sepChar ∉ a.data ∧ a ≠ attributeFormat)
    (hattrs : ∀ a ∈ d.Attributes, sepChar ∉ a.data ∧ a ≠ attributeFormat) :
    ∃ c, decodeKey (d.encodeKey now) = .ok c ∧ c.Command = d.Command ∧
      c.MakeArgs = d.MakeArgs := by
  have hsepfree : ∀ x ∈ ("0" :: d.Command :: d.MakeArgs), sepChar ∉ x.data := by
    intro x hx
    rcases List.mem_cons.mp hx with rfl | hx
    · decide
    rcases List.mem_cons.mp hx with rfl | hx
    · exact hcsep
    · exact sep_free_makeArgs hpool hname hcons
        (fun a ha => (hargs a ha).1) (fun a ha => (hattrs a ha).1) x hx
  have hsplit : goSplit sepChar (d.encodeKey now)
      = "0" :: d.Command :: d.MakeArgs := by
    rw [encodeKey_eq_join d now hlife]
    exact goSplit_goJoin (by simp) hsepfree
  have hL : d.MakeArgs = argsFront d ++ attrTail d := makeArgs_eq d
  unfold decodeKey
  rw [hsplit]
  by_cases hA : attributeFormat ∈ argsFront d
  · obtain ⟨X, Y0, hXY, hnX⟩ := exists_first_split hA
    have hmark : attributeFormat ∉ ("0" : String) :: d.Command :: X := by
      intro hm
      rcases List.mem_cons.mp hm with h | hm
      · exact absurd h (by decide)
      rcases List.mem_cons.mp hm with h | hm
      · exact hcmk h.symm
      · exact hnX hm
    have hshape : d.MakeArgs = X ++ attributeFormat :: (Y0 ++ attrTail d) := by
      rw [hL, hXY]
      simp
    rw [hL, hXY]
    rw [show (X ++ attributeFormat :: Y0) ++ attrTail d
        = X ++ attributeFormat :: (Y0 ++ attrTail d) from by simp]
    rw [decodeParts_with_marker _ _ _ _ _ hmark
      (by simp [attrTail_ne_nil d])]
    refine ⟨_, rfl, rfl, ?_⟩
    rw [makeArgs_decoded]
    rw [if_pos (by simp [attrTail_ne_nil d])]
  · by_cases hAt : d.Attributes = []
    · have htail : attrTail d = ["-long"] := by
        unfold attrTail
        rw [if_neg (by simp [hAt])]
      have hmark : attributeFormat ∉ ("0" : String) :: d.Command ::
          argsFront d := by
        intro hm
        rcases List.mem_cons.mp hm with h | hm
        · exact absurd h (by decide)
        rcases List.mem_cons.mp hm with h | hm
        · exact hcmk h.symm
        · exact hA hm
      rw [hL, htail, decodeParts_no_marker _ _ _ _ hmark]
      refine ⟨_, rfl, rfl, ?_⟩
      rw [makeArgs_decoded]
      simp
    · have htail : attrTail d = attributeFormat :: d.Attributes := by
        unfold attrTail
        rw [if_pos (by simp [hAt])]
      have hmark : attributeFormat ∉ ("0" : String) :: d.Command ::
          argsFront d := by
        intro hm
        rcases List.mem_cons.mp hm with h | hm
        · exact absurd h (by decide)
        rcases List.mem_cons.mp hm with h | hm
        · exact hcmk h.symm
        · exact hA hm
      rw [hL, htail, decodeParts_with_marker _ _ _ _ _ hmark hAt]
      refine ⟨_, rfl, rfl, ?_⟩
      rw [makeArgs_decoded]
      rw [if_pos (by simp [hAt])]

/-! ## Lemmas on `decodeParts` outcomes -/

theorem decodeParts_err_iff (parts : List String) (key : String) :
    (∃ e, decodeParts parts key = .err e) ↔ parts.length < 2 := by
  unfold decodeParts
  by_cases h : parts.length < 2
  · rw [if_pos h]
    exact ⟨fun _ => h, fun _ => ⟨_, rfl⟩⟩
  · rw [if_neg h]
    dsimp only
    constructor
    · rintro ⟨e, he⟩
      split_ifs at he
    · intro h'
      exact absurd h' h

theorem decodeParts_ok_two (p0 p1 : String) (key : String) :
    decodeParts [p0, p1] key = .ok ⟨p1, "", "", 0, "", [], [], 0⟩ := by
  unfold decodeParts
  rw [if_neg (by simp), if_neg (by simp)]
  simp

theorem decodeParts_ok_of (p0 p1 : String) (rest : List String)
    (key : String) (hp0 : p0 ≠ attributeFormat)
    (hp1 : p1 ≠ attributeFormat) :
    ∃ c, decodeParts (p0 :: p1 :: rest) key = .ok c ∧ c.Command = p1 := by
  cases rest with
  | nil => exact ⟨_, decodeParts_ok_two p0 p1 key, rfl⟩
  | cons r rs =>
    have hi : 2 ≤ (p0 :: p1 :: r :: rs).findIdx (· == attributeFormat) := by
      rw [List.findIdx_cons, List.findIdx_cons]
      have h0 : (p0 == attributeFormat) = false := by
        simpa using hp0
      have h1 : (p1 == attributeFormat) = false := by
        simpa using hp1
      simp [h0, h1]
    have hlen : 3 ≤ (p0 :: p1 :: r :: rs).length := by simp
    unfold decodeParts
    rw [if_neg (by simp), if_pos (by simp)]
    dsimp only
    by_cases hil : (p0 :: p1 :: r :: rs).findIdx (· == attributeFormat)
        < (p0 :: p1 :: r :: rs).length
    · rw [if_pos hil, if_neg (by omega)]
      exact ⟨_, rfl, rfl⟩
    · rw [if_neg hil, if_neg (by simp only [List.length_cons]; omega)]
      exact ⟨_, rfl, rfl⟩

/-! ## Claim theorems -/

/-- **C1, as stated, is false**: the claim restricts only the extra `Args`
and the `Attributes`, but a `Pool` value containing the reserved separator
also corrupts the key. For `d = {Command: "c", Pool: "\x1f"}` (zero
`cacheLifetime`, empty `Args` and `Attributes`), decoding the encoded key
succeeds but returns a command whose argument list
`["-pool", "", "", "-long"]` differs from `d`'s `["-pool", "\x1f",
"-long"]`. -/
theorem claim_C1_counterexample :
    (⟨"c", ⟨[sepChar]⟩, "", 0, "", [], [], 0⟩ : Command).cacheLifetime = 0 ∧
    (⟨"c", ⟨[sepChar]⟩, "", 0, "", [], [], 0⟩ : Command).Args = [] ∧
    (⟨"c", ⟨[sepChar]⟩, "", 0, "", [], [], 0⟩ : Command).Attributes = [] ∧
    decodeKey ((⟨"c", ⟨[sepChar]⟩, "", 0, "", [], [], 0⟩ : Command).encodeKey "")
      = .ok ⟨"c", "", "", 0, "", [], ["-pool", "", ""], 0⟩ ∧
    (⟨"c", "", "", 0, "", [], ["-pool", "", ""], 0⟩ : Command).MakeArgs ≠
      (⟨"c", ⟨[sepChar]⟩, "", 0, "", [], [], 0⟩ : Command).MakeArgs := by
  refine ⟨rfl, rfl, rfl, by decide, by decide⟩

/-- **C1 (amended)**: for every `Command` `d` with `cacheLifetime = 0` whose
`Command`, `Pool`, `Name` and `Constraint` contain no separator character,
whose `Command` is not the attribute marker, and whose `Args` and
`Attributes` elements contain no separator and are not the attribute
marker, `decodeKey (encodeKey d)` succeeds and returns a command with the
same tool name and the same `MakeArgs` list, element by element and in
order. -/
theorem claim_C1_roundtrip (d : Command) (now : String)
    (hlife : d.cacheLifetime = 0)
    (hcsep : sepChar ∉ d.Command.data) (hcmk : d.Command ≠ attributeFormat)
    (hpool : sepChar ∉ d.Pool.data) (hname : sepChar ∉ d.Name.data)
    (hcons : sepChar ∉ d.Constraint.data)
    (hargs : ∀ a ∈ d.Args, sepChar ∉ a.data ∧ a ≠ attributeFormat)
    (hattrs : ∀ a ∈ d.Attributes, sepChar ∉ a.data ∧ a ≠ attributeFormat) :
    ∃ c, decodeKey (d.encodeKey now) = .ok c ∧ c.Command = d.Command ∧
      c.MakeArgs = d.MakeArgs :=
  decode_encode d now hlife hcsep hcmk hpool hname hcons hargs hattrs

/-- Witness for `claim_C1_roundtrip` at a concrete command. -/
theorem claim_C1_roundtrip_witness :
    ∃ c, decodeKey ((⟨"condor_q", "mypool:9618", "", 2, "Owner",
        ["JobId", "Owner"], ["-schedd"], 0⟩ : Command).encodeKey "") = .ok c ∧
      c.Command = "condor_q" ∧
      c.MakeArgs = (⟨"condor_q", "mypool:9618", "", 2, "Owner",
        ["JobId", "Owner"], ["-schedd"], 0⟩ : Command).MakeArgs :=
  claim_C1_roundtrip _ "" rfl (by decide) (by decide) (by decide)
    (by decide) (by decide) (by decide) (by decide)

/-- **C5 (confirmed)**: `MakeArgs` renders exactly the fixed order
`[-pool P] [-name N] [-limit L] [-constraint C] extraArgs…
(-af:lrng attrs… | -long)`, and two commands that agree on all public
fields render identical argument lists. -/
theorem claim_C5_makeArgs_order (c d : Command)
    (h : c.Command = d.Command ∧ c.Pool = d.Pool ∧ c.Name = d.Name ∧
      c.Limit = d.Limit ∧ c.Constraint = d.Constraint ∧
      c.Attributes = d.Attributes ∧ c.Args = d.Args) :
    c.MakeArgs =
      (if c.Pool ≠ "" then ["-pool", c.Pool] else []) ++
        (if c.Name ≠ "" then ["-name", c.Name] else []) ++
        (if 0 < c.Limit then ["-limit", goItoa c.Limit] else []) ++
        (if c.Constraint ≠ "" then ["-constraint", c.Constraint] else []) ++
        c.Args ++
        (if c.Attributes ≠ [] then attributeFormat :: c.Attributes
          else ["-long"]) ∧
      c.MakeArgs = d.MakeArgs := by
  obtain ⟨h1, h2, h3, h4, h5, h6, h7⟩ := h
  constructor
  · rw [makeArgs_eq]
    unfold argsFront attrTail
    rfl
  · rw [makeArgs_eq c, makeArgs_eq d]
    unfold argsFront attrTail
    rw [h2, h3, h4, h5, h6, h7]

/-- Witness for `claim_C5_makeArgs_order` at a concrete pair. -/
theorem claim_C5_makeArgs_order_witness :
    (⟨"condor_q", "p", "", 3, "", ["A"], ["-x"], 0⟩ : Command).MakeArgs =
      (if ("p" : String) ≠ "" then ["-pool", "p"] else []) ++
        (if ("" : String) ≠ "" then ["-name", ""] else []) ++
        (if 0 < (3 : Int) then ["-limit", goItoa 3] else []) ++
        (if ("" : String) ≠ "" then ["-constraint", ""] else []) ++
        ["-x"] ++
        (if (["A"] : List String) ≠ [] then attributeFormat :: ["A"]
          else ["-long"]) ∧
      (⟨"condor_q", "p", "", 3, "", ["A"], ["-x"], 0⟩ : Command).MakeArgs =
        (⟨"condor_q", "p", "", 3, "", ["A"], ["-x"], 7⟩ : Command).MakeArgs :=
  claim_C5_makeArgs_order _ _ ⟨rfl, rfl, rfl, rfl, rfl, rfl, rfl⟩

/-- **C6, as stated, is false**: decoding does fail with a decode error
exactly when fewer than two fields are present, but a key with at least two
fields need not decode cleanly — when the attribute marker is one of the
first two fields and more than two fields are present, the Go code panics
on the slice expression `parts[2:endArgs]` with `endArgs < 2`. Concretely,
`"-af:lrng\x1fx\x1fy"` splits into three fields and decoding panics. -/
theorem claim_C6_counterexample :
    (goSplit sepChar "-af:lrng\x1fx\x1fy").length = 3 ∧
    decodeKey "-af:lrng\x1fx\x1fy" = .panicked := by
  constructor
  · decide
  · decide

/-- **C6 (amended)**: for every key, `decodeKey` fails with a decode error
exactly when splitting the key on the separator yields fewer than two
fields; and for every key with at least two fields — exactly two, or with
neither of the first two fields equal to the attribute marker — it returns,
without error or panic, a command whose tool name is the second field. -/
theorem claim_C6_decode_fields (key : String) :
    ((∃ e, decodeKey key = .err e) ↔ (goSplit sepChar key).length < 2) ∧
      ((goSplit sepChar key).length = 2 ∨
        (2 ≤ (goSplit sepChar key).length ∧
          (goSplit sepChar key).getD 0 "" ≠ attributeFormat ∧
          (goSplit sepChar key).getD 1 "" ≠ attributeFormat) →
        ∃ c, decodeKey key = .ok c ∧
          c.Command = (goSplit sepChar key).getD 1 "") := by
  unfold decodeKey
  constructor
  · exact decodeParts_err_iff _ _
  · intro h
    rcases h with h | ⟨hlen, h0, h1⟩
    · obtain ⟨p0, p1, hp⟩ := List.length_eq_two.mp h
      rw [hp]
      exact ⟨_, decodeParts_ok_two p0 p1 key, rfl⟩
    · rcases hgs : goSplit sepChar key with _ | ⟨p0, _ | ⟨p1, rest⟩⟩
      · rw [hgs] at hlen
        simp at hlen
      · rw [hgs] at hlen
        simp at hlen
      · rw [hgs] at h0 h1
        simpa using decodeParts_ok_of p0 p1 rest key (by simpa using h0)
          (by simpa using h1)

/-- Witness for `claim_C6_decode_fields` at a concrete key. -/
theorem claim_C6_decode_fields_witness :
    ∃ c, decodeKey "0\x1fcondor_q\x1f-long" = .ok c ∧
      c.Command = (goSplit sepChar "0\x1fcondor_q\x1f-long").getD 1 "" :=
  (claim_C6_decode_fields "0\x1fcondor_q\x1f-long").2 (Or.inr (by decide))

/-- **C7 (confirmed)**: `AttributeFromString` maps `"42"` to
`Integer 42`, `"3.14"` to `Real 3.14`, a quoted `"foo"` to `String foo`,
and the empty token to the `Error` attribute. -/
theorem claim_C7_attribute_tokens :
    AttributeFromString "42" = ⟨.Integer, .vInt 42⟩ ∧
      AttributeFromString "3.14" = ⟨.Real, .vReal (.finite (3.14 : ℚ))⟩ ∧
      AttributeFromString "\x22foo\x22" = ⟨.String, .vStr "foo"⟩ ∧
      AttributeFromString "" = ⟨.Error, .vNone⟩ := by
  have h314 : (3.14 : ℚ) = mkRat 157 50 := by
    rw [Rat.mkRat_eq_div]
    norm_num
  refine ⟨rfl, ?_, rfl, rfl⟩
  rw [h314]
  rfl

/-- **C8, as stated, is false**: the code removes *all* surrounding double
quotes with `strings.Trim(val, "\"")`, not exactly one layer. The token
`""foo""` is not numeric, and parses to the string `foo`, not to the
one-layer-stripped `"foo"`. -/
theorem claim_C8_counterexample :
    goParseInt "\x22\x22foo\x22\x22" = none ∧
    goParseFloat "\x22\x22foo\x22\x22" = none ∧
    AttributeFromString "\x22\x22foo\x22\x22" = ⟨.String, .vStr "foo"⟩ ∧
    AttributeFromString "\x22\x22foo\x22\x22" ≠
      ⟨.String, .vStr "\x22foo\x22"⟩ := by
  refine ⟨rfl, rfl, rfl, by decide⟩

/-- **C8 (amended)**: for every token whose space-trimmed form is non-empty
and parseable neither as an `int64` nor as a double, `AttributeFromString`
returns a `String` attribute whose value is the trimmed token with all
leading and trailing double-quote characters removed (inner quotes are kept
intact). -/
theorem claim_C8_string_fallback (s : String)
    (h1 : goTrim s [' '] ≠ "")
    (h2 : goParseInt (goTrim s [' ']) = none)
    (h3 : goParseFloat (goTrim s [' ']) = none) :
    AttributeFromString s =
      ⟨.String, .vStr (goTrim (goTrim s [' ']) ['\x22'])⟩ := by
  unfold AttributeFromString
  have hlen : ¬ (goTrim s [' ']).data.length = 0 := by
    intro h0
    apply h1
    apply String.ext
    exact List.length_eq_zero.mp h0
  rw [if_neg hlen]
  dsimp only
  by_cases hq : (goTrim s [' ']).data.head? = some '\x22'
  · rw [if_pos hq]
    rfl
  · rw [if_neg hq, h2, h3]
    rfl

/-- Witness for `claim_C8_string_fallback` at a concrete token. -/
theorem claim_C8_string_fallback_witness :
    AttributeFromString " \x22abc\x22def\x22 " =
      ⟨.String, .vStr (goTrim (goTrim " \x22abc\x22def\x22 " [' '])
        ['\x22'])⟩ :=
  claim_C8_string_fallback _ (by decide) rfl rfl

/-! ## Lemmas on the record parsers -/

theorem splitFirst_eq_none {sep : Char} {l : List Char} :
    splitFirst sep l = none ↔ sep ∉ l := by
  induction l with
  | nil => simp [splitFirst]
  | cons c cs ih =>
    rw [splitFirst]
    by_cases hc : c = sep
    · simp [hc]
    · have hcs : ¬ sep = c := fun h => hc h.symm
      simp [hc, Option.map_eq_none', ih, hcs]

theorem parseLine_eq_none {l : String} :
    parseLine l = none ↔ '=' ∉ l.data := by
  unfold parseLine
  rw [Option.map_eq_none']
  exact splitFirst_eq_none

/-- A malformed line somewhere in the remaining input aborts `readAds` with
an error. -/
theorem readAds_error_of_malformed (lines : List String)
    (ads : List ClassAd) (ad : ClassAd)
    (h : ∃ l ∈ lines, l ≠ "" ∧ '=' ∉ l.data) :
    ∃ e, readAds lines ads ad = .error e := by
  induction lines generalizing ads ad with
  | nil =>
    rcases h with ⟨l, hl, _⟩
    cases hl
  | cons l rest ih =>
    rcases h with ⟨l0, hl0, hne, hnoeq⟩
    rw [readAds]
    by_cases hblank : l = ""
    · have hl0rest : l0 ∈ rest := by
        rcases List.mem_cons.mp hl0 with rfl | h'
        · exact absurd hblank hne
        · exact h'
      rw [if_pos hblank]
      split
      · exact ih _ _ ⟨l0, hl0rest, hne, hnoeq⟩
      · exact ih _ _ ⟨l0, hl0rest, hne, hnoeq⟩
    · rw [if_neg hblank]
      cases hp : parseLine l with
      | none => exact ⟨_, rfl⟩
      | some p =>
        have hl0rest : l0 ∈ rest := by
          rcases List.mem_cons.mp hl0 with rfl | h'
          · rw [parseLine_eq_none.mpr hnoeq] at hp
            cases hp
          · exact h'
        exact ih _ _ ⟨l0, hl0rest, hne, hnoeq⟩

/-- Streaming over well-formed lines sends no errors. -/
theorem streamAds_no_error (lines : List String) (ad : ClassAd)
    (h : ∀ l ∈ lines, l = "" ∨ '=' ∈ l.data) :
    (streamAds lines ad).2 = [] := by
  induction lines generalizing ad with
  | nil => rfl
  | cons l rest ih =>
    rw [streamAds]
    by_cases hblank : l = ""
    · rw [if_pos hblank]
      split
      · exact ih [] (fun x hx => h x (by simp [hx]))
      · exact ih ad (fun x hx => h x (by simp [hx]))
    · rw [if_neg hblank]
      cases hp : parseLine l with
      | none =>
        rcases h l (by simp) with h' | h'
        · exact absurd h' hblank
        · exact absurd (parseLine_eq_none.mp hp) (by simpa using h')
      | some p => exact ih _ (fun x hx => h x (by simp [hx]))

/-- Deleting one malformed line from the input leaves the streamed records
unchanged and removes exactly one error. -/
theorem streamAds_malformed_insert (pre post : List String) (bad : String)
    (ad : ClassAd) (hb : bad ≠ "") (hm : '=' ∉ bad.data) :
    (streamAds (pre ++ bad :: post) ad).1 = (streamAds (pre ++ post) ad).1 ∧
      (streamAds (pre ++ bad :: post) ad).2.length =
        (streamAds (pre ++ post) ad).2.length + 1 := by
  induction pre generalizing ad with
  | nil =>
    rw [List.nil_append, List.nil_append, streamAds, if_neg hb,
      parseLine_eq_none.mpr hm]
    exact ⟨rfl, rfl⟩
  | cons l rest ih =>
    rw [List.cons_append, List.cons_append, streamAds, streamAds]
    by_cases hblank : l = ""
    · rw [if_pos hblank, if_pos hblank]
      by_cases had : ad ≠ []
      · rw [if_pos had, if_pos had]
        have := ih []
        exact ⟨by simp [this.1], by simp [this.2]⟩
      · rw [if_neg had, if_neg had]
        exact ih ad
    · rw [if_neg hblank, if_neg hblank]
      cases hp : parseLine l with
      | none =>
        have := ih ad
        exact ⟨by simp [this.1], by simp [this.2]⟩
      | some p => exact ih _

/-- On well-formed input the streamed record sequence equals the batch
record sequence, with no errors. -/
theorem readAds_eq_streamAds (lines : List String) (ads : List ClassAd)
    (ad : ClassAd) (h : ∀ l ∈ lines, l = "" ∨ '=' ∈ l.data) :
    readAds lines ads ad = .ok (ads ++ (streamAds lines ad).1) := by
  induction lines generalizing ads ad with
  | nil =>
    rw [readAds, streamAds]
    split
    · simp
    · simp
  | cons l rest ih =>
    rw [readAds, streamAds]
    by_cases hblank : l = ""
    · rw [if_pos hblank, if_pos hblank]
      by_cases had : ad ≠ []
      · rw [if_pos had, if_pos had]
        rw [ih _ [] (fun x hx => h x (by simp [hx]))]
        simp
      · rw [if_neg had, if_neg had]
        exact ih _ ad (fun x hx => h x (by simp [hx]))
    · rw [if_neg hblank, if_neg hblank]
      cases hp : parseLine l with
      | none =>
        rcases h l (by simp) with h' | h'
        · exact absurd h' hblank
        · exact absurd (parseLine_eq_none.mp hp) (by simpa using h')
      | some p => exact ih _ _ (fun x hx => h x (by simp [hx]))

/-! ## Claim theorems for the record parsers -/

/-- **C3 (confirmed)**: for every input containing at least one malformed
line (non-blank, no `=`), batch parsing returns an error and no record
list, regardless of surrounding well-formed records. -/
theorem claim_C3_batch_abort (input : String)
    (h : ∃ l ∈ goLines input, l ≠ "" ∧ '=' ∉ l.data) :
    ∃ e, ReadClassAds input = .error e :=
  readAds_error_of_malformed _ [] [] h

/-- Witness for `claim_C3_batch_abort` on a concrete fixture. -/
theorem claim_C3_batch_abort_witness :
    ∃ e, ReadClassAds "a = 1\ngarbage\nb = 2" = .error e :=
  claim_C3_batch_abort _ ⟨"garbage", by decide, by decide, by decide⟩

/-- **C4 (confirmed)**: for every input whose line sequence contains exactly
one malformed line (non-blank, no `=`) among otherwise well-formed lines,
streaming parsing sends exactly one error on the error channel and still
delivers on the record channel exactly the records of the input with the
malformed line ignored. -/
theorem claim_C4_stream_continue (input : String) (pre post : List String)
    (bad : String) (hdecomp : goLines input = pre ++ bad :: post)
    (hb : bad ≠ "") (hm : '=' ∉ bad.data)
    (hclean : ∀ l ∈ pre ++ post, l = "" ∨ '=' ∈ l.data) :
    (StreamClassAds input).2.length = 1 ∧
      (StreamClassAds input).1 = (streamAds (pre ++ post) []).1 := by
  unfold StreamClassAds
  rw [hdecomp]
  have hins := streamAds_malformed_insert pre post bad [] hb hm
  have hclean0 := streamAds_no_error (pre ++ post) [] hclean
  exact ⟨by rw [hins.2, hclean0]; rfl, hins.1⟩

/-- Witness for `claim_C4_stream_continue` on a concrete fixture. -/
theorem claim_C4_stream_continue_witness :
    (StreamClassAds "a = 1\ngarbage\nb = 2").2.length = 1 ∧
      (StreamClassAds "a = 1\ngarbage\nb = 2").1 =
        (streamAds (["a = 1"] ++ ["b = 2"]) []).1 :=
  claim_C4_stream_continue _ ["a = 1"] ["b = 2"] "garbage" (by decide)
    (by decide) (by decide) (by decide)

/-- **C10 (confirmed)**: on input in which every non-blank line contains an
`=` (and with no read errors, which the embedding does not model),
streaming sends no errors and sends exactly the record sequence that batch
parsing returns, element by element and in order. -/
theorem claim_C10_stream_refines_batch (input : String)
    (h : ∀ l ∈ goLines input, l = "" ∨ '=' ∈ l.data) :
    ReadClassAds input = .ok (StreamClassAds input).1 ∧
      (StreamClassAds input).2 = [] := by
  unfold ReadClassAds StreamClassAds
  refine ⟨?_, streamAds_no_error _ [] h⟩
  have := readAds_eq_streamAds (goLines input) [] [] h
  simpa using this

/-- Witness for `claim_C10_stream_refines_batch` on a concrete fixture. -/
theorem claim_C10_stream_refines_batch_witness :
    ReadClassAds "a = 1\nb = \x222\x22\n\nc = 3.5\n" =
      .ok (StreamClassAds "a = 1\nb = \x222\x22\n\nc = 3.5\n").1 ∧
      (StreamClassAds "a = 1\nb = \x222\x22\n\nc = 3.5\n").2 = [] :=
  claim_C10_stream_refines_batch _ (by decide)

/-! ## Lemmas on the slice model of `Copy` -/

theorem getD_set_ne (h : Heap) {i j : Nat} (x : List String) (hij : i ≠ j) :
    (h.set i x).getD j [] = h.getD j [] := by
  simp [List.getD_eq_getElem?_getD, List.getElem?_set_ne hij]

theorem getD_append_lt (h : Heap) (t : List (List String)) {j : Nat}
    (hj : j < h.length) : (h ++ t).getD j [] = h.getD j [] := by
  simp [List.getD_eq_getElem?_getD, List.getElem?_append, hj]

theorem getD_concat_length (h : Heap) (x : List String) :
    (h ++ [x]).getD h.length [] = x := by
  simp [List.getD_eq_getElem?_getD, List.getElem?_concat_length]

/-- The frame invariant keeps the original's observation fixed. -/
theorem frameInv_obs {h0 h : Heap} {c cc : HCommand}
    (hI : FrameInv h0 c h cc) : c.obs h = c.obs h0 := by
  unfold HCommand.obs Heap.view
  rw [hI.2.2.2.2.2.2.1, hI.2.2.2.2.2.2.2]

/-- One mutation of the copy preserves the frame invariant. -/
theorem frameInv_step {h0 h : Heap} {c cc : HCommand}
    (hI : FrameInv h0 c h cc) (m : Mutation) :
    FrameInv h0 c (applyMut h cc m).1 (applyMut h cc m).2 := by
  obtain ⟨hlA, hlB, d1, d2, d3, d4, g1, g2⟩ := hI
  cases m with
  | setCommand s => exact ⟨hlA, hlB, d1, d2, d3, d4, g1, g2⟩
  | setPool s => exact ⟨hlA, hlB, d1, d2, d3, d4, g1, g2⟩
  | setName s => exact ⟨hlA, hlB, d1, d2, d3, d4, g1, g2⟩
  | setLimit n => exact ⟨hlA, hlB, d1, d2, d3, d4, g1, g2⟩
  | setConstraint s => exact ⟨hlA, hlB, d1, d2, d3, d4, g1, g2⟩
  | addAttr a =>
    show FrameInv h0 c (cc.withAttribute h a).1 (cc.withAttribute h a).2
    unfold HCommand.withAttribute Heap.appendElem Heap.alloc
    split
    · exact ⟨by simp; omega, by simp; omega, by simp; omega, by simp; omega,
        d3, d4, by rw [getD_append_lt h _ hlA, g1],
        by rw [getD_append_lt h _ hlB, g2]⟩
    · split
      · exact ⟨by simpa using hlA, by simpa using hlB, d1, d2, d3, d4,
          by rw [getD_set_ne h _ d1, g1], by rw [getD_set_ne h _ d2, g2]⟩
      · exact ⟨by simp; omega, by simp; omega, by simp; omega,
          by simp; omega, d3, d4, by rw [getD_append_lt h _ hlA, g1],
          by rw [getD_append_lt h _ hlB, g2]⟩
  | addArg a =>
    show FrameInv h0 c (cc.withArg h a).1 (cc.withArg h a).2
    unfold HCommand.withArg Heap.appendElem Heap.alloc
    split
    · exact ⟨by simp; omega, by simp; omega, d1, d2, by simp; omega,
        by simp; omega, by rw [getD_append_lt h _ hlA, g1],
        by rw [getD_append_lt h _ hlB, g2]⟩
    · split
      · exact ⟨by simpa using hlA, by simpa using hlB, d1, d2, d3, d4,
          by rw [getD_set_ne h _ d3, g1], by rw [getD_set_ne h _ d4, g2]⟩
      · exact ⟨by simp; omega, by simp; omega, d1, d2, by simp; omega,
          by simp; omega, by rw [getD_append_lt h _ hlA, g1],
          by rw [getD_append_lt h _ hlB, g2]⟩

/-- Any mutation sequence on the copy preserves the frame invariant. -/
theorem frameInv_steps {h0 : Heap} {c : HCommand} (muts : List Mutation) :
    ∀ {h : Heap} {cc : HCommand}, FrameInv h0 c h cc →
      FrameInv h0 c (applyMuts h cc muts).1 (applyMuts h cc muts).2 := by
  induction muts with
  | nil => exact fun hI => hI
  | cons m ms ih =>
    intro h cc hI
    exact ih (frameInv_step hI m)

/-- `Copy` establishes the frame invariant. -/
theorem copy_frameInv (h : Heap) (c : HCommand)
    (h1 : c.Attributes.arr < h.length) (h2 : c.Args.arr < h.length) :
    FrameInv h c (c.copy h).1 (c.copy h).2 := by
  unfold HCommand.copy Heap.alloc
  dsimp only
  refine ⟨by simp; omega, by simp; omega, by simp; omega, by simp; omega,
    by simp; omega, by simp; omega, ?_, ?_⟩
  · rw [List.append_assoc, getD_append_lt h _ h1]
  · rw [List.append_assoc, getD_append_lt h _ h2]

/-- Reading back a freshly allocated, zero-padded array of exactly `len`
elements through a `(len, len)` header yields the copied contents, also
after further allocations `t`. -/
theorem view_padded_alloc (g : Heap) (v : List String) (len : Nat)
    (hlen : v.length = len) (t : List (List String)) :
    Heap.view ((g ++ [v ++ List.replicate (len - v.length) ""]) ++ t)
      ⟨g.length, len, len⟩ = v := by
  unfold Heap.view
  rw [← hlen]
  simp only [Nat.sub_self, List.replicate_zero, List.append_nil]
  rw [getD_append_lt (g ++ [v]) t (by simp), getD_concat_length]
  exact List.take_length v

/-- The variant of `view_padded_alloc` with no further allocations. -/
theorem view_padded_alloc0 (g : Heap) (v : List String) (len : Nat)
    (hlen : v.length = len) :
    Heap.view (g ++ [v ++ List.replicate (len - v.length) ""])
      ⟨g.length, len, len⟩ = v := by
  unfold Heap.view
  rw [← hlen]
  simp only [Nat.sub_self, List.replicate_zero, List.append_nil]
  rw [getD_concat_length]
  exact List.take_length v

/-- `Copy` reproduces every public field of the original. -/
theorem copy_obs (h : Heap) (c : HCommand)
    (hwfA : h.wfSlice c.Attributes) (hwfB : h.wfSlice c.Args) :
    ((c.copy h).2).obs (c.copy h).1 = c.obs h := by
  obtain ⟨hA1, hA2⟩ := hwfA
  obtain ⟨hB1, hB2⟩ := hwfB
  have hviewA : (h.view c.Attributes).length = c.Attributes.len := by
    unfold Heap.view
    rw [List.length_take]
    exact Nat.min_eq_left hA2
  have hviewB : (h.view c.Args).length = c.Args.len := by
    unfold Heap.view
    rw [List.length_take]
    exact Nat.min_eq_left hB2
  have hv : Heap.view (h ++ [h.view c.Attributes ++
      List.replicate (c.Attributes.len - (h.view c.Attributes).length) ""])
      c.Args = h.view c.Args := by
    unfold Heap.view
    rw [getD_append_lt h _ hB1]
  unfold HCommand.copy Heap.alloc HCommand.obs
  dsimp only
  simp only [ObsCommand.mk.injEq, true_and]
  refine ⟨?_, ?_⟩
  · exact view_padded_alloc h _ _ hviewA _
  · rw [hv]
    exact view_padded_alloc0 _ _ _ hviewB

/-! ## Claim theorem for `Copy` -/

/-- **C9 (confirmed)**: in the slice-level model, `Copy` returns a command
that observes equal on every public field, and any subsequent sequence of
builder calls (`WithAttribute`, `WithArg`) or scalar-field assignments
applied to the copy leaves every public field of the original unchanged:
the copy shares no backing storage with the original. -/
theorem claim_C9_copy_independent (h : Heap) (c : HCommand)
    (muts : List Mutation)
    (hwfA : h.wfSlice c.Attributes) (hwfB : h.wfSlice c.Args) :
    ((c.copy h).2).obs (c.copy h).1 = c.obs h ∧
      c.obs (applyMuts (c.copy h).1 (c.copy h).2 muts).1 = c.obs h := by
  refine ⟨copy_obs h c hwfA hwfB, ?_⟩
  have hinv := frameInv_steps muts (copy_frameInv h c hwfA.1 hwfB.1)
  exact frameInv_obs hinv

/-- Witness for `claim_C9_copy_independent` at a concrete heap, command and
mutation sequence. -/
theorem claim_C9_copy_independent_witness :
    (((⟨"condor_q", "", "", 0, "", ⟨0, 1, 1⟩, ⟨1, 0, 0⟩, 0⟩ :
        HCommand).copy [["A"], []]).2).obs
      ((⟨"condor_q", "", "", 0, "", ⟨0, 1, 1⟩, ⟨1, 0, 0⟩, 0⟩ :
        HCommand).copy [["A"], []]).1 =
      (⟨"condor_q", "", "", 0, "", ⟨0, 1, 1⟩, ⟨1, 0, 0⟩, 0⟩ :
        HCommand).obs [["A"], []] ∧
    (⟨"condor_q", "", "", 0, "", ⟨0, 1, 1⟩, ⟨1, 0, 0⟩, 0⟩ :
        HCommand).obs
      (applyMuts
        ((⟨"condor_q", "", "", 0, "", ⟨0, 1, 1⟩, ⟨1, 0, 0⟩, 0⟩ :
          HCommand).copy [["A"], []]).1
        ((⟨"condor_q", "", "", 0, "", ⟨0, 1, 1⟩, ⟨1, 0, 0⟩, 0⟩ :
          HCommand).copy [["A"], []]).2
        [.addAttr "x", .addArg "y", .setPool "p", .addAttr "z"]).1 =
      (⟨"condor_q", "", "", 0, "", ⟨0, 1, 1⟩, ⟨1, 0, 0⟩, 0⟩ :
        HCommand).obs [["A"], []] :=
  claim_C9_copy_independent [["A"], []]
    ⟨"condor_q", "", "", 0, "", ⟨0, 1, 1⟩, ⟨1, 0, 0⟩, 0⟩
    [.addAttr "x", .addArg "y", .setPool "p", .addAttr "z"]
    ⟨by decide, by decide⟩ ⟨by decide, by decide⟩

end Htcondor
